/-
Verification of the core build pipeline of codemirror/buildhelper.

The embedding translates the build module (the `Output` virtual store, the
comment mangler `readAndMangleComments`, the pure-call annotator
`addPureComments`, the one-shot compiler adapter `runTS`/`build`, the
bundler emit plan of `bundle`/`emit`, and the watch coordinator's change
classification `writeFor`) into executable Lean definitions, and proves
theorems about them.  JavaScript strings are modelled as `List Char`
(positions are code-unit indices, faithful for ASCII inputs); JS `slice`
clamping, the two regexes the module uses, and acorn-walk's `recursive`
traversal with the custom `CallExpression`/`NewExpression`/`Function`/
`Class` visitors are modelled explicitly below.
-/
import Mathlib

namespace CMB

/-- Characters of a JS string. -/
abbrev Chars := List Char

/-- Concatenation of a list of character lists. -/
def concatC (ls : List Chars) : Chars := ls.foldr (· ++ ·) []

/-- Space or tab, the `[ \t]` class of the mangler's regex. -/
def isSpaceTab (c : Char) : Bool := c == ' ' || c == '\t'

/-- The `\s` class of JS regexes, restricted to its ASCII members. -/
def isWS (c : Char) : Bool :=
  c == ' ' || c == '\t' || c == '\n' || c == '\r' || c == '\x0b' || c == '\x0c'

/-- The `\w` class of JS regexes: letters, digits and underscore. -/
def isWordChar (c : Char) : Bool := c.isAlphanum || c == '_'

/-- Clamping of one index argument of JS `String.prototype.slice`. -/
def clampIdx (len : Nat) (i : Int) : Nat :=
  if i < 0 then (Int.ofNat len + i).toNat else min i.toNat len

/-- JS `code.slice(a, b)` with its negative-index clamping. -/
def jsSlice (s : Chars) (a b : Int) : Chars :=
  (s.take (clampIdx s.length b)).drop (clampIdx s.length a)

/-- Whether `pat` occurs as a contiguous substring. -/
def containsSub (pat : Chars) : Chars → Bool
  | [] => pat.isEmpty
  | c :: rest => pat.isPrefixOf (c :: rest) || containsSub pat rest

/-- The module's `normalize`: every backslash becomes a forward slash. -/
def normalize (path : String) : String :=
  String.mk (path.data.map fun c => if c = '\\' then '/' else c)

/-- Node's posix `path.dirname`: skip trailing slashes, cut at the last
remaining slash; no slash yields `"."`, a slash only at the front yields
`"/"` (or node's `"//"` corner case). -/
def dirname (p : String) : String :=
  match p.data with
  | [] => "."
  | c0 :: rest =>
    let afterTrail := rest.reverse.dropWhile (fun c => c == '/')
    match afterTrail.dropWhile (fun c => c != '/') with
    | [] => if c0 = '/' then "/" else "."
    | _ :: before =>
      if c0 = '/' ∧ before = [] then "//" else String.mk (c0 :: before.reverse)

/-- `path.join` for the simple two-component joins the module performs. -/
def pathJoin (a b : String) : String := a ++ "/" ++ b

/-- `file.replace(/\.ts$/, ".js")` used on test files in `build`. -/
def toJs (f : String) : String :=
  match f.data.reverse with
  | 's' :: 't' :: '.' :: rest => String.mk (rest.reverse ++ ".js".data)
  | _ => f

/-- `file.replace(/\.d\.ts$|\.js$|\.js.map$/, ".ts")` from `writeFor`.
All three alternatives are end-anchored and mutually exclusive; the
unescaped dot of `\.js.map` matches an arbitrary character. -/
def toTsName (f : String) : String :=
  match f.data.reverse with
  | 'p' :: 'a' :: 'm' :: _ :: 's' :: 'j' :: '.' :: rest =>
    String.mk (rest.reverse ++ ".ts".data)
  | 's' :: 't' :: '.' :: 'd' :: '.' :: rest => String.mk (rest.reverse ++ ".ts".data)
  | 's' :: 'j' :: '.' :: rest => String.mk (rest.reverse ++ ".ts".data)
  | _ => f

/-- Lookup in the virtual file table (a JS object keyed by path). -/
def lookupF : List (String × String) → String → Option String
  | [], _ => none
  | kv :: rest, key => if kv.1 = key then some kv.2 else lookupF rest key

/-- Update/insert in the virtual file table. -/
def updateF : List (String × String) → String → String → List (String × String)
  | [], k, v => [(k, v)]
  | kv :: rest, k, v =>
    if kv.1 = k then (kv.1, v) :: rest else kv :: updateF rest k v

/-- The `Output` store: the virtual file table, the pending change batch,
the registered watcher count, whether a debounced flush is pending, and
(as a history variable) the batches already handed to watchers. -/
structure Output where
  files : List (String × String)
  changed : List String
  watchers : Nat
  watchTimeout : Bool
  notified : List (List String)
deriving DecidableEq

/-- `Output.write`: returns unchanged when the stored content for the
normalized path already equals `content`; otherwise records the content,
appends the (unnormalized) path to the batch unless already present,
cancels a pending debounce timer and re-arms it when a watcher exists. -/
def Output.write (s : Output) (path content : String) : Output :=
  let norm := normalize path
  if lookupF s.files norm = some content then s
  else
    { files := updateF s.files norm content
      changed := if path ∈ s.changed then s.changed else s.changed ++ [path]
      watchers := s.watchers
      watchTimeout := decide (s.watchers ≠ 0)
      notified := s.notified }

/-- `Output.get`. -/
def Output.get (s : Output) (path : String) : Option String :=
  lookupF s.files (normalize path)

/-- The debounce timer's callback: hand the batch to every watcher and
empty it.  One flush delivers one batch (recorded in `notified`). -/
def Output.flush (s : Output) : Output :=
  { s with notified := s.notified ++ [s.changed], changed := [], watchTimeout := false }

/-- Events of the store's single-threaded event loop: a write, or the
expiry of the pending debounce timer. -/
inductive OEvent where
  | write (path content : String)
  | fire
deriving DecidableEq

/-- One event-loop step: the timer callback runs only while scheduled. -/
def step (s : Output) : OEvent → Output
  | .write p c => s.write p c
  | .fire => if s.watchTimeout then s.flush else s

/-- Run a sequence of events. -/
def runEvents (s : Output) (evs : List OEvent) : Output := evs.foldl step s

/-- Run a burst of writes (all within one debounce window). -/
def writesRun (s : Output) (ws : List (String × String)) : Output :=
  ws.foldl (fun st pc => st.write pc.1 pc.2) s

/-- Every write of the burst finds different stored content, so none is
dropped by the idempotence guard. -/
def effectiveRun (s : Output) : List (String × String) → Bool
  | [] => true
  | pc :: rest =>
    decide (lookupF s.files (normalize pc.1) ≠ some pc.2)
      && effectiveRun (s.write pc.1 pc.2) rest

/-- A fresh store with `w` registered watchers. -/
def initOutput (w : Nat) : Output := ⟨[], [], w, false, []⟩

/-- A line segment produced by `splitNL`: its own characters including the
terminating newline (the final segment may lack one). -/
def splitNL : Chars → List Chars
  | [] => []
  | '\n' :: rest => ['\n'] :: splitNL rest
  | c :: rest =>
    match splitNL rest with
    | [] => [[c]]
    | l :: ls => (c :: l) :: ls

/-- One iteration of the mangler's `(?:([ \t]*)\/\/\/.*\n)+` group: the
line ends with a newline and, after optional indentation, starts with
`///`.  The `(?<=^|\n)` lookbehind is line-start anchoring, which the
segment decomposition provides. -/
def isMarkedSeg (l : Chars) : Bool :=
  l.getLast? == some '\n' && "///".data.isPrefixOf (l.dropWhile isSpaceTab)

/-- `comment.replace(/\]\(#/g, "](https://codemirror.net/6/docs/ref/#")`:
left-to-right, non-overlapping, no rescan of the replacement. -/
def replaceRefs : Chars → Chars
  | ']' :: '(' :: '#' :: rest => "](https://codemirror.net/6/docs/ref/#".data ++ replaceRefs rest
  | c :: rest => c :: replaceRefs rest
  | [] => []

/-- `comment.replace(/\/\/\/ ?/g, "")`: each `///`, with one following
space when present, is removed, scanning left to right. -/
def stripMarkers : Chars → Chars
  | '/' :: '/' :: '/' :: ' ' :: rest => stripMarkers rest
  | '/' :: '/' :: '/' :: rest => stripMarkers rest
  | c :: rest => c :: stripMarkers rest
  | [] => []

/-- The replacement callback of `readAndMangleComments` on one maximal run
of marked lines: `space` is the indentation captured by the last iteration
(the run's last line), cross-references are rewritten first, then the
template `space/**\n space (comment.slice(space.length) stripped) space*/\n`. -/
def mangleRun (runLines : List Chars) : Chars :=
  let space :=
    match runLines.getLast? with
    | some l => l.takeWhile isSpaceTab
    | none => []
  let comment := replaceRefs (concatC runLines)
  space ++ "/**\n".data ++ space ++ stripMarkers (comment.drop space.length)
    ++ space ++ "*/\n".data

/-- Emit a (reversed) accumulated run: nothing when no run is open. -/
def emitRun : List Chars → Chars
  | [] => []
  | l :: ls => mangleRun ((l :: ls).reverse)

/-- The global regex replace as a single left-to-right pass over the line
segments: maximal runs of marked segments become `mangleRun` blocks,
every other segment passes through unchanged. -/
def mangleAux : List Chars → List Chars → Chars
  | racc, [] => emitRun racc
  | racc, l :: rest =>
    if isMarkedSeg l then mangleAux (l :: racc) rest
    else emitRun racc ++ l ++ mangleAux [] rest

/-- The comment-mangling text transform applied to an in-scope file. -/
def mangle (file : String) : String := String.mk (mangleAux [] (splitNL file.data))

/-- `readAndMangleComments(dirs)` as the reader it returns: reads through
`readFile`, and mangles only nonempty content whose containing directory
is one of the build unit's source/test directories. -/
def readAndMangleComments (dirs : List String) (readFile : String → Option String)
    (name : String) : Option String :=
  match readFile name with
  | none => none
  | some file =>
    if file ≠ "" ∧ dirname name ∈ dirs then some (mangle file) else some file

/-- A textual patch of the annotator: insertion position, optional
replacement end, text to insert.  The enum rewrite can compute a negative
position when the call starts within the first 100 characters. -/
structure Patch where
  pfrom : Int
  pto : Option Int
  ins : Chars
deriving DecidableEq

/-- The inserted tree-shaking marker. -/
def pureC : Chars := "/*@__PURE__*/".data

/-- `addPure`: push a marker patch unless the last computed patch is
already a marker at the same position. -/
def addPure (patches : List Patch) (pos : Int) : List Patch :=
  match patches.getLast? with
  | some last =>
    if last.pfrom = pos ∧ last.ins = pureC then patches
    else patches ++ [⟨pos, none, pureC⟩]
  | none => patches ++ [⟨pos, none, pureC⟩]

mutual
/-- Acorn AST nodes, restricted to the node types the annotated bundles
exercise; `ns`/`ne` are acorn's `start`/`end`.  `functionExpr`,
`functionDecl` and `arrowFunc` are the members of acorn-walk's `Function`
aggregate (ids and params need not be traversed: the custom visitor is
empty); `classNode` stands for both members of `Class`. -/
inductive JSNode where
  | program (body : JSList) (ns ne : Nat)
  | exprStmt (e : JSNode) (ns ne : Nat)
  | varDecl (ds : JSList) (ns ne : Nat)
  | varDeclarator (idn : JSNode) (ini : JSList) (ns ne : Nat)
  | callExpr (callee : JSNode) (args : JSList) (ns ne : Nat)
  | newExpr (callee : JSNode) (args : JSList) (ns ne : Nat)
  | functionExpr (params : JSList) (body : JSNode) (ns ne : Nat)
  | functionDecl (params : JSList) (body : JSNode) (ns ne : Nat)
  | arrowFunc (params : JSList) (body : JSNode) (ns ne : Nat)
  | classNode (ns ne : Nat)
  | blockStmt (body : JSList) (ns ne : Nat)
  | ident (nm : Chars) (ns ne : Nat)
  | lit (ns ne : Nat)
  | assignExpr (lhs rhs : JSNode) (ns ne : Nat)
  | memberExpr (obj prop : JSNode) (computed : Bool) (ns ne : Nat)
/-- A list of AST nodes (`varDeclarator`'s `ini` uses it as an option:
empty or a single node). -/
inductive JSList where
  | nil
  | cons (hd : JSNode) (tl : JSList)
end

/-- Acorn's `end` of a node. -/
def nodeEnd : JSNode → Nat
  | .program _ _ e => e
  | .exprStmt _ _ e => e
  | .varDecl _ _ e => e
  | .varDeclarator _ _ _ e => e
  | .callExpr _ _ _ e => e
  | .newExpr _ _ _ e => e
  | .functionExpr _ _ _ e => e
  | .functionDecl _ _ _ e => e
  | .arrowFunc _ _ _ e => e
  | .classNode _ e => e
  | .blockStmt _ _ e => e
  | .ident _ _ e => e
  | .lit _ e => e
  | .assignExpr _ _ _ e => e
  | .memberExpr _ _ _ _ e => e

/-- Length of a node list (`params.length`). -/
def jsLen : JSList → Nat
  | .nil => 0
  | .cons _ tl => jsLen tl + 1

/-- `params[0].name` when the sole parameter is an identifier; `none`
models JS `undefined`, which never equals the regex capture string. -/
def headIdentName : JSList → Option Chars
  | .cons (.ident nm _ _) _ => some nm
  | _ => none

/-- Attempt of `/\bvar (\w+);\s*$/` anchored at the current position:
literal `var `, a nonempty maximal word run (the capture), `;`, then
whitespace to the end of the input. -/
def execVarFrom : Chars → Option Chars
  | 'v' :: 'a' :: 'r' :: ' ' :: rest =>
    let w := rest.takeWhile isWordChar
    match rest.dropWhile isWordChar with
    | ';' :: tail => if w ≠ [] ∧ tail.all isWS then some w else none
    | _ => none
  | _ => none

/-- Leftmost-match scan for `exec`: try each position whose predecessor is
not a word character (the `\b` before `var`). -/
def execVarAux : Chars → Nat → Bool → Option (Nat × Chars)
  | [], _, _ => none
  | c :: rest, i, atBoundary =>
    match (if atBoundary then execVarFrom (c :: rest) else none) with
    | some w => some (i, w)
    | none => execVarAux rest (i + 1) (!isWordChar c)

/-- `m = /\bvar (\w+);\s*$/.exec(slice)`: `(m.index, m[1])`. -/
def execVarRe (s : Chars) : Option (Nat × Chars) := execVarAux s 0 true

/-- The TS-style enum special case of the `CallExpression` visitor: when
the callee is a one-parameter `FunctionExpression` and the ~100 preceding
characters end in a matching `var` declaration, push the two rewrite
patches (declaration to assignment, appended return). -/
def enumPatches (code : Chars) (callee : JSNode) (st : Nat)
    (patches : List Patch) : List Patch :=
  match callee with
  | .functionExpr params body _ _ =>
    if jsLen params = 1 then
      match execVarRe (jsSlice code (Int.ofNat st - 100) (Int.ofNat st)) with
      | some iw =>
        match headIdentName params with
        | some nm =>
          if nm = iw.2 then
            patches
              ++ [⟨Int.ofNat iw.1 + 4 + Int.ofNat iw.2.length + (Int.ofNat st - 100),
                    some (Int.ofNat st), " = ".data⟩,
                  ⟨Int.ofNat (nodeEnd body) - 1, none, "return ".data ++ iw.2⟩]
          else patches
        | none => patches
      | none => patches
    else patches
  | _ => patches

mutual
/-- The acorn-walk `recursive` traversal of `addPureComments`, threading
the patch array: base visitors descend into children in source order; the
custom `CallExpression`/`NewExpression` visitors visit the arguments then
the callee (`walkCall`), then `addPure(node.start)`, the call visitor then
trying the enum rewrite; the custom `Function`/`Class` visitors do
nothing, so those bodies are never entered. -/
def walkN (code : Chars) (n : JSNode) (patches : List Patch) : List Patch :=
  match n with
  | .program b _ _ => walkL code b patches
  | .exprStmt e _ _ => walkN code e patches
  | .varDecl ds _ _ => walkL code ds patches
  | .varDeclarator idn ini _ _ => walkL code ini (walkN code idn patches)
  | .callExpr callee args st _ =>
    enumPatches code callee st
      (addPure (walkN code callee (walkL code args patches)) (Int.ofNat st))
  | .newExpr callee args st _ =>
    addPure (walkN code callee (walkL code args patches)) (Int.ofNat st)
  | .functionExpr _ _ _ _ => patches
  | .functionDecl _ _ _ _ => patches
  | .arrowFunc _ _ _ _ => patches
  | .classNode _ _ => patches
  | .blockStmt b _ _ => walkL code b patches
  | .ident _ _ _ => patches
  | .lit _ _ => patches
  | .assignExpr lhs rhs _ _ => walkN code rhs (walkN code lhs patches)
  | .memberExpr obj prop computed _ _ =>
    if computed then walkN code prop (walkN code obj patches)
    else walkN code obj patches
/-- Child-list traversal in order. -/
def walkL (code : Chars) (l : JSList) (patches : List Patch) : List Patch :=
  match l with
  | .nil => patches
  | .cons hd tl => walkL code tl (walkN code hd patches)
end

/-- Order of patches used by `patches.sort((a, b) => a.from - b.from)`. -/
def patchLE (a b : Patch) : Prop := a.pfrom ≤ b.pfrom

instance : DecidableRel patchLE := fun a b => Int.decLe a.pfrom b.pfrom

instance : IsTotal Patch patchLE := ⟨fun a b => Int.le_total a.pfrom b.pfrom⟩

instance : IsTrans Patch patchLE := ⟨fun _ _ _ => Int.le_trans⟩

/-- JS `Array.prototype.sort` is a stable ascending sort; any stable
insertion by `patchLE` computes the same list. -/
def sortPatches (l : List Patch) : List Patch := List.insertionSort patchLE l

/-- The single left-to-right rewrite pass of `addPureComments`'s final
loop: emit the text up to the next patch, the insertion, and continue at
the patch's `to` when present. -/
def applyPatches (code : Chars) : Int → List Patch → Chars
  | pos, [] => jsSlice code pos (Int.ofNat code.length)
  | pos, p :: rest =>
    jsSlice code pos p.pfrom ++ p.ins ++ applyPatches code (p.pto.getD p.pfrom) rest

/-- The sorted patch list `addPureComments` computes for a bundle (the
parse of `code` is supplied as `ast`). -/
def annPatches (code : Chars) (ast : JSNode) : List Patch :=
  sortPatches (walkN code ast [])

/-- `addPureComments`: annotate the bundle text. -/
def addPureComments (code : Chars) (ast : JSNode) : Chars :=
  applyPatches code 0 (annPatches code ast)

mutual
/-- Specification-side comparator (from the spec's words, not the code):
the start positions of every call expression and constructor invocation
that is not lexically nested inside a function or class body, collected
without descending into function or class bodies, arguments and callee
before the call itself. -/
def topCallStarts : JSNode → List Nat
  | .program b _ _ => topCallStartsL b
  | .exprStmt e _ _ => topCallStarts e
  | .varDecl ds _ _ => topCallStartsL ds
  | .varDeclarator idn ini _ _ => topCallStarts idn ++ topCallStartsL ini
  | .callExpr callee args st _ => topCallStartsL args ++ topCallStarts callee ++ [st]
  | .newExpr callee args st _ => topCallStartsL args ++ topCallStarts callee ++ [st]
  | .functionExpr _ _ _ _ => []
  | .functionDecl _ _ _ _ => []
  | .arrowFunc _ _ _ _ => []
  | .classNode _ _ => []
  | .blockStmt b _ _ => topCallStartsL b
  | .ident _ _ _ => []
  | .lit _ _ => []
  | .assignExpr lhs rhs _ _ => topCallStarts lhs ++ topCallStarts rhs
  | .memberExpr obj prop computed _ _ =>
    topCallStarts obj ++ (if computed then topCallStarts prop else [])
/-- Collector over node lists. -/
def topCallStartsL : JSList → List Nat
  | .nil => []
  | .cons hd tl => topCallStarts hd ++ topCallStartsL tl
end

/-- No two consecutive computed patches are markers at one position (what
`addPure`'s guard enforces). -/
def noAdjPureDup (l : List Patch) : Prop :=
  List.Chain' (fun a b => ¬(a.ins = pureC ∧ b.ins = pureC ∧ a.pfrom = b.pfrom)) l

/-- Outcome of `program.emit(undefined, out.write)`: whether emission was
skipped (blocking diagnostics) and the write calls it issued. -/
structure EmitResult where
  emitSkipped : Bool
  writes : List (String × String)

/-- `runTS`: route every emitted file into a fresh `Output`; a skipped
emission yields an absent result instead of an exception. -/
def runTS (r : EmitResult) : Option Output :=
  let out := writesRun (initOutput 0) r.writes
  if r.emitSkipped then none else some out

/-- A build unit as `build` consumes it. -/
structure BPkg where
  root : String
  tests : List String
deriving DecidableEq

/-- Externally visible actions of `build` after compilation: invoking the
bundler for a unit, and writing a compiled test file to disk. -/
inductive BuildAct where
  | bundled (root : String)
  | wroteFile (path : String)
deriving DecidableEq

/-- `build`: `false` with no actions when the compiler adapter returns an
absent result; otherwise bundle every unit and copy its compiled tests. -/
def build (pkgs : List BPkg) (r : EmitResult) : Bool × List BuildAct :=
  match runTS r with
  | none => (false, [])
  | some _ =>
    (true,
      pkgs.foldr
        (fun p acc =>
          BuildAct.bundled p.root :: p.tests.map (fun t => BuildAct.wroteFile (toJs t)) ++ acc)
        [])

/-- One `emit` invocation's configuration inside `bundle`. -/
structure EmitConf where
  format : String
  file : String
  sourcemap : Bool
deriving DecidableEq

/-- The three `emit` calls of `bundle` in order, each with its `makePure`
argument: the ES bundle gets `!options.sourceMap`, the CommonJS and
declaration bundles use the parameter's default `false`. -/
def bundleEmitPlan (root : String) (sourceMap : Bool) : List (EmitConf × Bool) :=
  let dist := pathJoin root "dist"
  [(⟨"esm", pathJoin dist "index.js", sourceMap⟩, !sourceMap),
   (⟨"cjs", pathJoin dist "index.cjs", sourceMap⟩, false),
   (⟨"esm", pathJoin dist "index.d.ts", false⟩, false)]

/-- The content transform inside `emit`: annotate only when `makePure`. -/
def emitContent (makePure : Bool) (annotate : Chars → Chars) (content : Chars) : Chars :=
  if makePure then annotate content else content

/-- A build unit as the watch coordinator sees it. -/
structure WPkg where
  root : String
  tests : List String
deriving DecidableEq

/-- The classification loop of `writeFor`: map each changed virtual path
to a pass-through write (extra file or unit-owned test artifact) or mark
its owning unit dirty; a path whose grandparent directory matches no unit
root raises `"No package found for "` + the path. -/
def classify (pkgs : List WPkg) (extraNorm : List String) :
    List String → List String × List WPkg → Except String (List String × List WPkg)
  | [], acc => Except.ok acc
  | f :: rest, acc =>
    let t := toTsName f
    if t ∈ extraNorm then classify pkgs extraNorm rest (acc.1 ++ [f], acc.2)
    else
      match pkgs.find? (fun p => normalize p.root == dirname (dirname f)) with
      | none => Except.error ("No package found for " ++ f)
      | some pkg =>
        if t ∈ pkg.tests then classify pkgs extraNorm rest (acc.1 ++ [f], acc.2)
        else if pkg ∈ acc.2 then classify pkgs extraNorm rest acc
        else classify pkgs extraNorm rest (acc.1, acc.2 ++ [pkg])

/-- A path the loop classifies without raising. -/
def classifiesOk (pkgs : List WPkg) (extraNorm : List String) (f : String) : Prop :=
  toTsName f ∈ extraNorm
    ∨ (pkgs.find? (fun p => normalize p.root == dirname (dirname f))).isSome = true

/-- A decomposition of a file's line segments into literal lines and
maximal runs of marked lines, used to characterize `mangle`. -/
inductive MChunk where
  | plain (l : Chars)
  | run (ls : List Chars)

/-- The segments a chunk stands for. -/
def chunkSegs : MChunk → List Chars
  | .plain l => [l]
  | .run ls => ls

/-- What the mangler emits for a chunk: literal lines pass through, a run
becomes one block comment. -/
def chunkOut : MChunk → Chars
  | .plain l => l
  | .run ls => mangleRun ls

/-- A literal chunk is an unmarked segment; a run chunk is a nonempty list
of marked segments. -/
def chunkGoodB : MChunk → Bool
  | .plain l => !isMarkedSeg l
  | .run ls => !ls.isEmpty && ls.all (fun s => isMarkedSeg s)

/-- Whether a chunk is a literal line. -/
def chunkPlainB : MChunk → Bool
  | .plain _ => true
  | .run _ => false

/-- Maximality of runs: a run chunk must be followed by a literal line
(or end the file). -/
def runFollowOk : MChunk → List MChunk → Bool
  | .run _, c2 :: _ => chunkPlainB c2
  | _, _ => true

/-- Well-formed decomposition: every chunk is good and runs are maximal
(a run is never followed directly by another run). -/
def chunksWFB : List MChunk → Bool
  | [] => true
  | c :: rest => chunkGoodB c && runFollowOk c rest && chunksWFB rest

/-- The segment list a decomposition stands for. -/
def joinChunks (cs : List MChunk) : List Chars :=
  cs.foldr (fun c acc => chunkSegs c ++ acc) []

/-- Concrete inputs from the specification's testable properties, with the
acorn parse positions of each node. -/
def ex2code : Chars := "function f()\x7b g(); \x7d h();".data

/-- Parse of `ex2code`. -/
def ex2ast : JSNode :=
  .program
    (.cons
      (.functionDecl .nil
        (.blockStmt
          (.cons (.exprStmt (.callExpr (.ident "g".data 14 15) .nil 14 17) 14 18) .nil)
          12 20)
        0 20)
      (.cons (.exprStmt (.callExpr (.ident "h".data 21 22) .nil 21 24) 21 25) .nil))
    0 25

/-- A nested top-level call chain, to exhibit the annotator's visit order. -/
def exOrdCode : Chars := "h(g());".data

/-- Parse of `exOrdCode`. -/
def exOrdAst : JSNode :=
  .program
    (.cons
      (.exprStmt
        (.callExpr (.ident "h".data 0 1)
          (.cons (.callExpr (.ident "g".data 2 3) .nil 2 5) .nil) 0 6)
        0 7)
      .nil)
    0 7

/-- The specification's enum-rewrite example, verbatim: the declared
variable is `E` while the function's parameter is `E2`. -/
def ex3code : Chars := "var E; (function(E2)\x7b E2.A = 0 \x7d)(E);".data

/-- Parse of `ex3code`. -/
def ex3ast : JSNode :=
  .program
    (.cons
      (.varDecl (.cons (.varDeclarator (.ident "E".data 4 5) .nil 4 5) .nil) 0 6)
      (.cons
        (.exprStmt
          (.callExpr
            (.functionExpr (.cons (.ident "E2".data 17 19) .nil)
              (.blockStmt
                (.cons
                  (.exprStmt
                    (.assignExpr
                      (.memberExpr (.ident "E2".data 22 24) (.ident "A".data 25 26) false 22 26)
                      (.lit 29 30) 22 30)
                    22 30)
                  .nil)
                20 32)
              8 32)
            (.cons (.ident "E".data 34 35) .nil) 7 36)
          7 37)
        .nil))
    0 37

/-- An enum-shaped immediately-invoked function whose result is invoked
again: both call expressions start at position 7. -/
def ex4code : Chars := "var E; (function(E)\x7b E.A = 0 \x7d)(E)();".data

/-- Parse of `ex4code`. -/
def ex4ast : JSNode :=
  .program
    (.cons
      (.varDecl (.cons (.varDeclarator (.ident "E".data 4 5) .nil 4 5) .nil) 0 6)
      (.cons
        (.exprStmt
          (.callExpr
            (.callExpr
              (.functionExpr (.cons (.ident "E".data 17 18) .nil)
                (.blockStmt
                  (.cons
                    (.exprStmt
                      (.assignExpr
                        (.memberExpr (.ident "E".data 21 22) (.ident "A".data 23 24) false 21 24)
                        (.lit 27 28) 21 28)
                      21 28)
                    .nil)
                  19 30)
                8 30)
              (.cons (.ident "E".data 32 33) .nil) 7 34)
            .nil 7 36)
          7 37)
        .nil))
    0 37

/-- A chained call `f(0)(1);`: the outer call and its callee share start
position 0, exercising `addPure`'s adjacent-duplicate guard. -/
def exChainCode : Chars := "f(0)(1);".data

/-- Parse of `exChainCode`. -/
def exChainAst : JSNode :=
  .program
    (.cons
      (.exprStmt
        (.callExpr
          (.callExpr (.ident "f".data 0 1) (.cons (.lit 2 3) .nil) 0 4)
          (.cons (.lit 5 6) .nil) 0 7)
        0 8)
      .nil)
    0 8

/-- The store's invariant: the pending batch has no duplicate path, and
neither does any batch already handed to watchers. -/
def OutInv (s : Output) : Prop :=
  s.changed.Nodup ∧ ∀ b ∈ s.notified, b.Nodup

/-- A store holding one file, for the write-idempotence witness. -/
def exC1 : Output := ⟨[("a", "x")], [], 0, false, []⟩

/-- A compiler run with blocking diagnostics. -/
def exC6 : EmitResult := ⟨true, [("a.js", "x")]⟩

/-- A build unit for the watch-classification witness. -/
def exC7pkg : WPkg := ⟨"/r/pkg", ["/r/pkg/test/test-a.ts"]⟩

/-!  Theorems. -/

theorem write_watchers (s : Output) (p c : String) : (s.write p c).watchers = s.watchers := by
  unfold Output.write
  dsimp only
  split <;> rfl

theorem write_notified (s : Output) (p c : String) : (s.write p c).notified = s.notified := by
  unfold Output.write
  dsimp only
  split <;> rfl

theorem writesRun_nil (s : Output) : writesRun s [] = s := rfl

theorem writesRun_cons (s : Output) (pc : String × String) (ws : List (String × String)) :
    writesRun s (pc :: ws) = writesRun (s.write pc.1 pc.2) ws := rfl

theorem writesRun_watchers : ∀ (ws : List (String × String)) (s : Output),
    (writesRun s ws).watchers = s.watchers
  | [], _ => rfl
  | pc :: ws, s => by
    rw [writesRun_cons, writesRun_watchers ws, write_watchers]

theorem writesRun_notified : ∀ (ws : List (String × String)) (s : Output),
    (writesRun s ws).notified = s.notified
  | [], _ => rfl
  | pc :: ws, s => by
    rw [writesRun_cons, writesRun_notified ws, write_notified]

theorem effectiveRun_cons (s : Output) (pc : String × String) (ws : List (String × String)) :
    effectiveRun s (pc :: ws) = true
      ↔ lookupF s.files (normalize pc.1) ≠ some pc.2
          ∧ effectiveRun (s.write pc.1 pc.2) ws = true := by
  simp [effectiveRun]

theorem write_changed_effective (s : Output) (p c : String)
    (h : lookupF s.files (normalize p) ≠ some c) :
    (s.write p c).changed = if p ∈ s.changed then s.changed else s.changed ++ [p] := by
  unfold Output.write
  simp [h]

theorem write_timer_effective (s : Output) (p c : String)
    (h : lookupF s.files (normalize p) ≠ some c) :
    (s.write p c).watchTimeout = decide (s.watchers ≠ 0) := by
  unfold Output.write
  simp [h]

theorem writesRun_changed : ∀ (ws : List (String × String)) (s : Output),
    effectiveRun s ws = true → (List.map Prod.fst ws).Nodup →
    (∀ pc ∈ ws, pc.1 ∉ s.changed) →
    (writesRun s ws).changed = s.changed ++ List.map Prod.fst ws
  | [], s, _, _, _ => by simp [writesRun]
  | pc :: ws, s, heff, hnd, hmem => by
    obtain ⟨h1, h2⟩ := (effectiveRun_cons s pc ws).mp heff
    have hp : pc.1 ∉ s.changed := hmem pc (List.mem_cons_self _ _)
    have hch : (s.write pc.1 pc.2).changed = s.changed ++ [pc.1] := by
      rw [write_changed_effective s pc.1 pc.2 h1, if_neg hp]
    have hforall : ∀ qc ∈ ws, qc.1 ∉ (s.write pc.1 pc.2).changed := by
      intro qc hqc
      rw [hch]
      intro hq
      rcases List.mem_append.mp hq with h | h
      · exact hmem qc (List.mem_cons_of_mem _ hqc) h
      · have hne : pc.1 ∉ List.map Prod.fst ws := (List.nodup_cons.mp hnd).1
        have : qc.1 ∈ List.map Prod.fst ws := List.mem_map_of_mem _ hqc
        rw [List.mem_singleton] at h
        rw [h] at this
        exact hne this
    rw [writesRun_cons, writesRun_changed ws _ h2 (List.nodup_cons.mp hnd).2 hforall, hch,
      List.map_cons, List.append_assoc, List.singleton_append]

theorem writesRun_timer : ∀ (ws : List (String × String)) (s : Output), ws ≠ [] →
    effectiveRun s ws = true → s.watchers ≠ 0 → (writesRun s ws).watchTimeout = true
  | [], _, hne, _, _ => absurd rfl hne
  | [pc], s, _, heff, hw => by
    obtain ⟨h1, _⟩ := (effectiveRun_cons s pc []).mp heff
    rw [writesRun_cons, writesRun_nil, write_timer_effective s pc.1 pc.2 h1]
    simpa using hw
  | pc :: qc :: ws, s, _, heff, hw => by
    obtain ⟨h1, h2⟩ := (effectiveRun_cons s pc (qc :: ws)).mp heff
    rw [writesRun_cons]
    refine writesRun_timer (qc :: ws) _ (by simp) h2 ?_
    rw [write_watchers]
    exact hw

/-- C1: when the store's current content for the (normalized) path already
equals the written content, `Output.write` is a no-op: the whole state is
returned unchanged — the file table keeps its entries, nothing is appended
to the change batch, and no debounced notification is scheduled or reset. -/
theorem write_same_content_is_noop (s : Output) (p c : String)
    (h : s.get p = some c) : s.write p c = s := by
  unfold Output.get at h
  unfold Output.write
  simp [h]

/-- C1 witness: writing `"x"` again to path `"a"` leaves `exC1` unchanged. -/
theorem write_same_content_is_noop_witness :
    exC1.get "a" = some "x" ∧ exC1.write "a" "x" = exC1 :=
  ⟨by decide, write_same_content_is_noop exC1 "a" "x" (by decide)⟩

/-- C6: when the compiler reports blocking diagnostics (`emitSkipped`),
`runTS` returns an absent result rather than throwing, and `build`
consequently returns `false` having invoked no bundling and written no
file to disk. -/
theorem emit_skipped_build_fails (pkgs : List BPkg) (r : EmitResult)
    (h : r.emitSkipped = true) :
    runTS r = none ∧ build pkgs r = (false, []) := by
  have h1 : runTS r = none := by simp [runTS, h]
  exact ⟨h1, by simp [build, h1]⟩

/-- C6 witness: a concrete skipped emission fails the build of one unit. -/
theorem emit_skipped_build_fails_witness :
    runTS exC6 = none ∧ build [⟨"/r/p", ["/r/p/test/t.ts"]⟩] exC6 = (false, []) :=
  emit_skipped_build_fails [⟨"/r/p", ["/r/p/test/t.ts"]⟩] exC6 rfl

/-- C10: in `bundle`'s emit plan the annotation flag is set only on the
ES-module bundle `dist/index.js` and only when source maps are off: with
`sourceMap` on no artifact is annotated, and the CommonJS and declaration
bundles never are; inside `emit`, a false flag leaves content unchanged. -/
theorem pure_annotation_only_esm_without_sourcemap :
    (∀ root sm, ((bundleEmitPlan root sm).filter (fun e => e.2)).map (fun e => e.1.file)
        = if sm then [] else [pathJoin (pathJoin root "dist") "index.js"])
      ∧ ∀ annotate content, emitContent false annotate content = content := by
  refine ⟨fun root sm => ?_, fun _ _ => rfl⟩
  cases sm <;> simp [bundleEmitPlan]

/-- C8: after a burst of N effective writes to N distinct paths within one
debounce window (no intervening expiry; the timer is re-armed by every
write) on a store with a registered watcher and an empty pending batch,
the single expiry hands watchers exactly one batch, and that batch lists
all N written paths. -/
theorem debounce_single_notification (s : Output) (ws : List (String × String))
    (hw : s.watchers ≠ 0) (hc : s.changed = []) (hne : ws ≠ [])
    (hnd : (List.map Prod.fst ws).Nodup) (heff : effectiveRun s ws = true) :
    (step (writesRun s ws) OEvent.fire).notified
        = s.notified ++ [List.map Prod.fst ws]
      ∧ (step (writesRun s ws) OEvent.fire).changed = [] := by
  have htimer := writesRun_timer ws s hne heff hw
  have hch : (writesRun s ws).changed = List.map Prod.fst ws := by
    rw [writesRun_changed ws s heff hnd (by simp [hc]), hc, List.nil_append]
  have hnot := writesRun_notified ws s
  constructor <;> simp [step, htimer, Output.flush, hch, hnot]

/-- C8 witness: two writes to distinct paths under one registered watcher
yield one notification carrying both paths. -/
theorem debounce_single_notification_witness :
    (step (writesRun (initOutput 1) [("a", "1"), ("b", "2")]) OEvent.fire).notified
        = [["a", "b"]]
      ∧ (step (writesRun (initOutput 1) [("a", "1"), ("b", "2")]) OEvent.fire).changed = [] :=
  debounce_single_notification (initOutput 1) [("a", "1"), ("b", "2")]
    (by decide) rfl (by decide) (by decide) (by decide)

theorem write_inv (s : Output) (p c : String) (h : OutInv s) : OutInv (s.write p c) := by
  obtain ⟨h1, h2⟩ := h
  unfold Output.write
  dsimp only
  split
  · exact ⟨h1, h2⟩
  · refine ⟨?_, h2⟩
    dsimp only
    split
    · exact h1
    · rename_i hmem
      rw [(List.perm_append_singleton p s.changed).nodup_iff]
      exact List.nodup_cons.mpr ⟨hmem, h1⟩

theorem flush_inv (s : Output) (h : OutInv s) : OutInv s.flush := by
  obtain ⟨h1, h2⟩ := h
  refine ⟨List.nodup_nil, ?_⟩
  intro b hb
  simp only [Output.flush, List.mem_append, List.mem_singleton] at hb
  rcases hb with hb | rfl
  · exact h2 b hb
  · exact h1

theorem step_inv (s : Output) (e : OEvent) (h : OutInv s) : OutInv (step s e) := by
  cases e with
  | write p c => exact write_inv s p c h
  | fire =>
    simp only [step]
    split
    · exact flush_inv s h
    · exact h

theorem runEvents_cons (s : Output) (e : OEvent) (evs : List OEvent) :
    runEvents s (e :: evs) = runEvents (step s e) evs := rfl

theorem runEvents_inv : ∀ (evs : List OEvent) (s : Output), OutInv s → OutInv (runEvents s evs)
  | [], _, h => h
  | e :: evs, s, h => runEvents_inv evs (step s e) (step_inv s e h)

theorem noReappear : ∀ (evs : List OEvent) (s : Output) (p : String),
    p ∉ s.changed → (∀ c, OEvent.write p c ∉ evs) →
    p ∉ (runEvents s evs).changed
      ∧ ∀ b ∈ (runEvents s evs).notified, b ∈ s.notified ∨ p ∉ b
  | [], _, _, hp, _ => ⟨hp, fun _ hb => Or.inl hb⟩
  | e :: evs, s, p, hp, hev => by
    have hev2 : ∀ c, OEvent.write p c ∉ evs := fun c hc => hev c (List.mem_cons_of_mem _ hc)
    have hstepc : p ∉ (step s e).changed := by
      cases e with
      | write q c =>
        have hqp : q ≠ p := by
          intro h
          subst h
          exact hev c (List.mem_cons_self _ _)
        simp only [step]
        unfold Output.write
        dsimp only
        split
        · exact hp
        · dsimp only
          split
          · exact hp
          · intro hmem
            rcases List.mem_append.mp hmem with h | h
            · exact hp h
            · rw [List.mem_singleton] at h
              exact hqp h.symm
      | fire =>
        simp only [step]
        split
        · simp [Output.flush]
        · exact hp
    have hstepn : ∀ b ∈ (step s e).notified, b ∈ s.notified ∨ p ∉ b := by
      cases e with
      | write q c =>
        intro b hb
        simp only [step] at hb
        rw [write_notified] at hb
        exact Or.inl hb
      | fire =>
        intro b hb
        simp only [step] at hb
        split at hb
        · simp only [Output.flush, List.mem_append, List.mem_singleton] at hb
          rcases hb with hb | rfl
          · exact Or.inl hb
          · exact Or.inr hp
        · exact Or.inl hb
    obtain ⟨ih1, ih2⟩ := noReappear evs (step s e) p hstepc hev2
    refine ⟨ih1, fun b hb => ?_⟩
    rcases ih2 b hb with hb2 | hnp
    · exact hstepn b hb2
    · exact Or.inr hnp

/-- C9: in every reachable store state the pending batch and every batch
handed to watchers are duplicate-free; a flush hands the batch over and
empties it in the same atomic step; and a path absent from the pending
batch never appears in a batch produced later unless it is written again. -/
theorem batch_nodup_flush_empties_noreappear :
    (∀ (w : Nat) (evs : List OEvent),
        (runEvents (initOutput w) evs).changed.Nodup
          ∧ ∀ b ∈ (runEvents (initOutput w) evs).notified, b.Nodup)
      ∧ (∀ s : Output, s.watchTimeout = true →
          (step s OEvent.fire).changed = []
            ∧ (step s OEvent.fire).notified = s.notified ++ [s.changed])
      ∧ (∀ (s : Output) (p : String) (evs : List OEvent), p ∉ s.changed →
          (∀ c, OEvent.write p c ∉ evs) →
          ∀ b ∈ (runEvents s evs).notified, b ∈ s.notified ∨ p ∉ b) := by
  refine ⟨fun w evs => ?_, fun s h => ?_, fun s p evs h1 h2 => (noReappear evs s p h1 h2).2⟩
  · exact runEvents_inv evs (initOutput w) ⟨List.nodup_nil, by simp [initOutput]⟩
  · constructor <;> simp [step, h, Output.flush]

/-- C9 witness: a concrete trace — two writes, a flush, one further write —
instantiating each conjunct. -/
theorem batch_nodup_flush_empties_noreappear_witness :
    ((runEvents (initOutput 1) [OEvent.write "a" "1", OEvent.write "b" "2"]).changed.Nodup
        ∧ ∀ b ∈ (runEvents (initOutput 1)
            [OEvent.write "a" "1", OEvent.write "b" "2"]).notified, b.Nodup)
      ∧ ((step ⟨[("a", "1")], ["a"], 1, true, []⟩ OEvent.fire).changed = []
          ∧ (step ⟨[("a", "1")], ["a"], 1, true, []⟩ OEvent.fire).notified = [] ++ [["a"]])
      ∧ ∀ b ∈ (runEvents ⟨[("a", "1")], [], 1, false, [["a"]]⟩
          [OEvent.write "b" "2", OEvent.fire]).notified, b ∈ [["a"]] ∨ "a" ∉ b :=
  ⟨batch_nodup_flush_empties_noreappear.1 1 [OEvent.write "a" "1", OEvent.write "b" "2"],
   batch_nodup_flush_empties_noreappear.2.1 ⟨[("a", "1")], ["a"], 1, true, []⟩ rfl,
   batch_nodup_flush_empties_noreappear.2.2 ⟨[("a", "1")], [], 1, false, [["a"]]⟩ "a"
     [OEvent.write "b" "2", OEvent.fire] (by decide)
     (by
       intro c hc
       simp only [List.mem_cons, List.mem_singleton] at hc
       rcases hc with h | h | h <;> simp at h)⟩

theorem classify_append_error (pkgs : List WPkg) (extraNorm : List String)
    (f : String) (post : List String)
    (h2 : toTsName f ∉ extraNorm)
    (h3 : ∀ p ∈ pkgs, ¬ normalize p.root = dirname (dirname f)) :
    ∀ (pre : List String), (∀ g ∈ pre, classifiesOk pkgs extraNorm g) →
    ∀ acc, classify pkgs extraNorm (pre ++ f :: post) acc
      = Except.error ("No package found for " ++ f) := by
  intro pre
  induction pre with
  | nil =>
    intro _ acc
    have hfind : pkgs.find? (fun p => normalize p.root == dirname (dirname f)) = none := by
      apply List.find?_eq_none.mpr
      intro p hp
      simpa using h3 p hp
    simp [classify, h2, hfind]
  | cons g pre ih =>
    intro hok acc
    have hg := hok g (List.mem_cons_self _ _)
    have hrest : ∀ x ∈ pre, classifiesOk pkgs extraNorm x :=
      fun x hx => hok x (List.mem_cons_of_mem _ hx)
    show classify pkgs extraNorm (g :: (pre ++ f :: post)) acc = _
    rcases hg with hextra | hfound
    · rw [classify, if_pos hextra]
      exact ih hrest _
    · obtain ⟨pkg, hpkg⟩ := Option.isSome_iff_exists.mp hfound
      by_cases ht : toTsName g ∈ extraNorm
      · rw [classify, if_pos ht]
        exact ih hrest _
      · rw [classify, if_neg ht, hpkg]
        dsimp only
        by_cases htest : toTsName g ∈ pkg.tests
        · rw [if_pos htest]
          exact ih hrest _
        · rw [if_neg htest]
          by_cases hin : pkg ∈ acc.2
          · rw [if_pos hin]
            exact ih hrest _
          · rw [if_neg hin]
            exact ih hrest _

/-- C7: in watch mode, a changed virtual path that is not an extra file and
whose grandparent directory matches no unit root makes the change handler
raise an error naming that path (here: the first such path of the batch,
every earlier path classifying cleanly), rather than dropping the change;
a path that does match a unit is classified as a test write-through when
its source is one of the unit's test files, and otherwise marks the unit
dirty. -/
theorem unmatched_path_raises :
    (∀ (pkgs : List WPkg) (extraNorm pre : List String) (f : String) (post : List String),
        (∀ g ∈ pre, classifiesOk pkgs extraNorm g) →
        toTsName f ∉ extraNorm →
        (∀ p ∈ pkgs, ¬ normalize p.root = dirname (dirname f)) →
        classify pkgs extraNorm (pre ++ f :: post) ([], [])
          = Except.error ("No package found for " ++ f))
      ∧ (∀ (pkgs : List WPkg) (extraNorm : List String) (f : String) (pkg : WPkg),
          toTsName f ∉ extraNorm →
          pkgs.find? (fun p => normalize p.root == dirname (dirname f)) = some pkg →
          classify pkgs extraNorm [f] ([], [])
            = Except.ok (if toTsName f ∈ pkg.tests then ([f], []) else ([], [pkg]))) := by
  constructor
  · intro pkgs extraNorm pre f post h1 h2 h3
    exact classify_append_error pkgs extraNorm f post h2 h3 pre h1 ([], [])
  · intro pkgs extraNorm f pkg h2 hfind
    rw [classify, if_neg h2, hfind]
    dsimp only
    by_cases htest : toTsName f ∈ pkg.tests
    · rw [if_pos htest, if_pos htest]
      rfl
    · rw [if_neg htest, if_neg htest]
      rfl

/-- C7 witness: an unowned path raises the naming error; an owned non-test
path marks its unit dirty. -/
theorem unmatched_path_raises_witness :
    classify [exC7pkg] [] ([] ++ "/other/dir/file.js" :: []) ([], [])
        = Except.error ("No package found for " ++ "/other/dir/file.js")
      ∧ classify [exC7pkg] [] ["/r/pkg/src/index.js"] ([], [])
        = Except.ok
            (if toTsName "/r/pkg/src/index.js" ∈ exC7pkg.tests
             then (["/r/pkg/src/index.js"], []) else ([], [exC7pkg])) :=
  ⟨unmatched_path_raises.1 [exC7pkg] [] [] "/other/dir/file.js" []
      (by simp) (by decide) (by decide),
   unmatched_path_raises.2 [exC7pkg] [] "/r/pkg/src/index.js" exC7pkg
      (by decide) (by decide)⟩

/-- C5 counterexample: inside a matched run the global `/\/\/\/ ?/g`
replace also strips mid-line `///` occurrences.  The marked line
`/// a /// b` keeps neither marker: the mid-line one is not left
untouched, contrary to the claim's final clause. -/
theorem midline_marker_stripped_inside_run :
    mangle "/// a /// b\n" = "/**\na b\n*/\n"
      ∧ containsSub "///".data (mangle "/// a /// b\n").data = false := by
  constructor <;> decide

theorem emitRun_reverse (ls : List Chars) (h : ls ≠ []) :
    emitRun ls.reverse = mangleRun ls := by
  cases hr : ls.reverse with
  | nil =>
    exact absurd (List.reverse_eq_nil_iff.mp hr) h
  | cons x t =>
    have : emitRun (x :: t) = mangleRun ((x :: t).reverse) := rfl
    rw [this, ← hr, List.reverse_reverse]

theorem mangleAux_marked : ∀ (ls racc rest : List Chars),
    (∀ s ∈ ls, isMarkedSeg s = true) →
    mangleAux racc (ls ++ rest) = mangleAux (ls.reverse ++ racc) rest
  | [], racc, rest, _ => by simp
  | l :: ls, racc, rest, h => by
    have hl : isMarkedSeg l = true := h l (List.mem_cons_self _ _)
    have hstep : mangleAux racc (l :: (ls ++ rest))
        = if isMarkedSeg l then mangleAux (l :: racc) (ls ++ rest)
          else emitRun racc ++ l ++ mangleAux [] (ls ++ rest) := rfl
    show mangleAux racc (l :: (ls ++ rest)) = _
    rw [hstep, if_pos hl,
      mangleAux_marked ls (l :: racc) rest (fun s hs => h s (List.mem_cons_of_mem _ hs))]
    simp [List.reverse_cons, List.append_assoc]

theorem mangleAux_factor (racc rest : List Chars)
    (h : rest = [] ∨ ∃ l t, rest = l :: t ∧ isMarkedSeg l = false) :
    mangleAux racc rest = emitRun racc ++ mangleAux [] rest := by
  rcases h with rfl | ⟨l, t, rfl, hl⟩
  · show emitRun racc = emitRun racc ++ emitRun []
    simp [emitRun]
  · have h1 : mangleAux racc (l :: t)
        = if isMarkedSeg l then mangleAux (l :: racc) t
          else emitRun racc ++ l ++ mangleAux [] t := rfl
    have h2 : mangleAux [] (l :: t)
        = if isMarkedSeg l then mangleAux [l] t
          else emitRun [] ++ l ++ mangleAux [] t := rfl
    rw [h1, h2, if_neg (by simp [hl]), if_neg (by simp [hl])]
    show emitRun racc ++ l ++ mangleAux [] t = emitRun racc ++ ([] ++ l ++ mangleAux [] t)
    simp [List.append_assoc]

theorem mangle_chunks : ∀ (cs : List MChunk), chunksWFB cs = true →
    mangleAux [] (joinChunks cs) = concatC (cs.map chunkOut)
  | [], _ => rfl
  | .plain l :: cs, h => by
    have hparts := h
    simp only [chunksWFB, Bool.and_eq_true] at hparts
    obtain ⟨⟨hgood, _⟩, hrest⟩ := hparts
    have hl : isMarkedSeg l = false := by
      simpa [chunkGoodB] using hgood
    have hjoin : joinChunks (MChunk.plain l :: cs) = l :: joinChunks cs := rfl
    have hstep : mangleAux [] (l :: joinChunks cs)
        = if isMarkedSeg l then mangleAux [l] (joinChunks cs)
          else emitRun [] ++ l ++ mangleAux [] (joinChunks cs) := rfl
    rw [hjoin, hstep, if_neg (by simp [hl]), mangle_chunks cs hrest]
    simp [concatC, emitRun, chunkOut]
  | .run ls :: cs, h => by
    have hparts := h
    simp only [chunksWFB, Bool.and_eq_true] at hparts
    obtain ⟨⟨hgood, hmax⟩, hrest⟩ := hparts
    have hgood2 : ls.isEmpty = false ∧ ls.all (fun s => isMarkedSeg s) = true := by
      simpa [chunkGoodB, Bool.and_eq_true] using hgood
    have hne : ls ≠ [] := by
      intro hnil
      rw [hnil] at hgood2
      simp at hgood2
    have hmarked : ∀ s ∈ ls, isMarkedSeg s = true :=
      fun s hs => List.all_eq_true.mp hgood2.2 s hs
    have hjoin : joinChunks (MChunk.run ls :: cs) = ls ++ joinChunks cs := rfl
    have hhead : joinChunks cs = []
        ∨ ∃ l t, joinChunks cs = l :: t ∧ isMarkedSeg l = false := by
      cases cs with
      | nil => exact Or.inl rfl
      | cons c2 cs2 =>
        cases c2 with
        | plain l2 =>
          refine Or.inr ⟨l2, joinChunks cs2, rfl, ?_⟩
          have hrest2 := hrest
          simp only [chunksWFB, Bool.and_eq_true] at hrest2
          simpa [chunkGoodB] using hrest2.1.1
        | run ls2 => simp [runFollowOk, chunkPlainB] at hmax
    rw [hjoin, mangleAux_marked ls [] (joinChunks cs) hmarked, List.append_nil,
      mangleAux_factor ls.reverse (joinChunks cs) hhead, emitRun_reverse ls hne,
      mangle_chunks cs hrest]
    simp [concatC, chunkOut]

/-- C5 amended: reads outside the unit's source/test directories pass
through byte-identical; inside them, the mangler rewrites the segment
stream chunk-wise — every line not beginning (after indentation) with
`///` is emitted unchanged, even when it contains a mid-line `///`, and
each maximal run of marked lines becomes the single block comment
`mangleRun` builds (indentation kept, `](#` cross-references rewritten to
absolute documentation URLs, every `///` marker of the run stripped,
including mid-line ones).  The two closing conjuncts instantiate an
indented run with a cross-reference and a mid-line occurrence on an
unmarked line. -/
theorem mangle_scope_and_runs :
    (∀ (dirs : List String) (fsys : String → Option String) (name : String),
        dirname name ∉ dirs → readAndMangleComments dirs fsys name = fsys name)
      ∧ (∀ cs : List MChunk, chunksWFB cs = true →
          mangleAux [] (joinChunks cs) = concatC (cs.map chunkOut))
      ∧ mangle "  /// a\n  /// [x](#y)\n"
          = "  /**\n  a\n  [x](https://codemirror.net/6/docs/ref/#y)\n  */\n"
      ∧ mangle "let x = 1; /// note\n/// doc\n" = "let x = 1; /// note\n/**\ndoc\n*/\n" := by
  refine ⟨?_, mangle_chunks, by decide, by decide⟩
  intro dirs fsys name h
  unfold readAndMangleComments
  cases fsys name with
  | none => rfl
  | some file =>
    show (if file ≠ "" ∧ dirname name ∈ dirs then some (mangle file) else some file)
      = some file
    rw [if_neg]
    intro hc
    exact h hc.2

/-- C5 witness: the scope conjunct at a concrete reader and the chunk
conjunct at a concrete decomposition. -/
theorem mangle_scope_and_runs_witness :
    readAndMangleComments ["/u/src"] (fun _ => some "/// x\n") "/dep/f.ts"
        = some "/// x\n"
      ∧ mangleAux [] (joinChunks [MChunk.plain "code\n".data, MChunk.run ["/// d\n".data]])
        = concatC ([MChunk.plain "code\n".data, MChunk.run ["/// d\n".data]].map chunkOut) :=
  ⟨mangle_scope_and_runs.1 ["/u/src"] (fun _ => some "/// x\n") "/dep/f.ts" (by decide),
   mangle_scope_and_runs.2.1 [MChunk.plain "code\n".data, MChunk.run ["/// d\n".data]]
     (by decide)⟩

theorem spaceIns_ne_pure : " = ".data ≠ pureC := by decide

theorem returnIns_ne_pure (w : Chars) : "return ".data ++ w ≠ pureC := by
  have h1 : "return ".data = ['r', 'e', 't', 'u', 'r', 'n', ' '] := rfl
  have h2 : pureC = ['/', '*', '@', '_', '_', 'P', 'U', 'R', 'E', '_', '_', '*', '/'] := rfl
  rw [h1, h2]
  intro h
  exact absurd (List.cons.inj h).1 (by decide)

theorem exists_mem_append {α : Type} (A B : List α) (P : α → Prop) :
    (∃ x ∈ A ++ B, P x) ↔ (∃ x ∈ A, P x) ∨ ∃ x ∈ B, P x := by
  simp [List.mem_append, or_and_right, exists_or]

theorem addPure_pure_mem (acc : List Patch) (pos p : Int) :
    (∃ q ∈ addPure acc pos, q.ins = pureC ∧ q.pfrom = p)
      ↔ (∃ q ∈ acc, q.ins = pureC ∧ q.pfrom = p) ∨ p = pos := by
  cases hl : acc.getLast? with
  | none =>
    have hnil : acc = [] := List.getLast?_eq_none_iff.mp hl
    subst hnil
    have hstep : addPure [] pos = [⟨pos, none, pureC⟩] := rfl
    rw [hstep]
    simp [eq_comm]
  | some last =>
    have hmem : last ∈ acc := List.mem_of_mem_getLast? (by simp [hl])
    by_cases hcond : last.pfrom = pos ∧ last.ins = pureC
    · have hstep : addPure acc pos = acc := by
        unfold addPure
        rw [hl]
        exact if_pos hcond
      rw [hstep]
      constructor
      · exact fun h => Or.inl h
      · rintro (h | rfl)
        · exact h
        · exact ⟨last, hmem, hcond.2, hcond.1⟩
    · have hstep : addPure acc pos = acc ++ [⟨pos, none, pureC⟩] := by
        unfold addPure
        rw [hl]
        exact if_neg hcond
      rw [hstep]
      constructor
      · rintro ⟨q, hq, hpure, hfrom⟩
        rcases List.mem_append.mp hq with hq | hq
        · exact Or.inl ⟨q, hq, hpure, hfrom⟩
        · rw [List.mem_singleton] at hq
          subst hq
          exact Or.inr hfrom.symm
      · rintro (⟨q, hq, hpure, hfrom⟩ | hpp)
        · exact ⟨q, List.mem_append.mpr (Or.inl hq), hpure, hfrom⟩
        · exact ⟨⟨pos, none, pureC⟩,
            List.mem_append.mpr (Or.inr (List.mem_singleton.mpr rfl)), rfl, hpp.symm⟩

theorem enumPatches_pure_mem (code : Chars) (callee : JSNode) (st : Nat)
    (acc : List Patch) (p : Int) :
    (∃ q ∈ enumPatches code callee st acc, q.ins = pureC ∧ q.pfrom = p)
      ↔ ∃ q ∈ acc, q.ins = pureC ∧ q.pfrom = p := by
  cases callee with
  | functionExpr params body ns ne =>
    simp only [enumPatches]
    split
    · split
      · split
        · split
          · constructor
            · rintro ⟨q, hq, hpure, hfrom⟩
              rcases List.mem_append.mp hq with hq | hq
              · exact ⟨q, hq, hpure, hfrom⟩
              · rcases List.mem_cons.mp hq with rfl | hq
                · exact absurd hpure spaceIns_ne_pure
                · rw [List.mem_singleton] at hq
                  subst hq
                  exact absurd hpure (returnIns_ne_pure _)
            · rintro ⟨q, hq, hpure, hfrom⟩
              exact ⟨q, List.mem_append.mpr (Or.inl hq), hpure, hfrom⟩
          · exact Iff.rfl
        · exact Iff.rfl
      · exact Iff.rfl
    · exact Iff.rfl
  | program b s e => exact Iff.rfl
  | exprStmt x s e => exact Iff.rfl
  | varDecl ds s e => exact Iff.rfl
  | varDeclarator a b s e => exact Iff.rfl
  | callExpr a b s e => exact Iff.rfl
  | newExpr a b s e => exact Iff.rfl
  | functionDecl a b s e => exact Iff.rfl
  | arrowFunc a b s e => exact Iff.rfl
  | classNode s e => exact Iff.rfl
  | blockStmt b s e => exact Iff.rfl
  | ident a s e => exact Iff.rfl
  | lit s e => exact Iff.rfl
  | assignExpr a b s e => exact Iff.rfl
  | memberExpr a b c s e => exact Iff.rfl

theorem or4_shuffle {A B C : Prop} {x y : Int} :
    (((A ∨ B) ∨ C) ∨ x = y) ↔ (A ∨ ((B ∨ C) ∨ y = x)) := by
  constructor
  · rintro (((h | h) | h) | h)
    · exact Or.inl h
    · exact Or.inr (Or.inl (Or.inl h))
    · exact Or.inr (Or.inl (Or.inr h))
    · exact Or.inr (Or.inr h.symm)
  · rintro (h | (h | h) | h)
    · exact Or.inl (Or.inl (Or.inl h))
    · exact Or.inl (Or.inl (Or.inr h))
    · exact Or.inl (Or.inr h)
    · exact Or.inr h.symm

mutual
theorem walkN_pure_mem : ∀ (code : Chars) (n : JSNode) (acc : List Patch) (p : Int),
    (∃ q ∈ walkN code n acc, q.ins = pureC ∧ q.pfrom = p)
      ↔ (∃ q ∈ acc, q.ins = pureC ∧ q.pfrom = p)
          ∨ ∃ st ∈ topCallStarts n, Int.ofNat st = p
  | code, .program b s e, acc, p => by
    simpa only [walkN, topCallStarts] using walkL_pure_mem code b acc p
  | code, .exprStmt x s e, acc, p => by
    simpa only [walkN, topCallStarts] using walkN_pure_mem code x acc p
  | code, .varDecl ds s e, acc, p => by
    simpa only [walkN, topCallStarts] using walkL_pure_mem code ds acc p
  | code, .varDeclarator idn ini s e, acc, p => by
    simp only [walkN, topCallStarts]
    rw [walkL_pure_mem code ini (walkN code idn acc) p, walkN_pure_mem code idn acc p,
      exists_mem_append]
    exact or_assoc
  | code, .callExpr callee args st e, acc, p => by
    simp only [walkN, topCallStarts]
    rw [enumPatches_pure_mem code callee st
        (addPure (walkN code callee (walkL code args acc)) (Int.ofNat st)) p,
      addPure_pure_mem (walkN code callee (walkL code args acc)) (Int.ofNat st) p,
      walkN_pure_mem code callee (walkL code args acc) p,
      walkL_pure_mem code args acc p,
      exists_mem_append, exists_mem_append]
    simp only [List.mem_singleton, exists_eq_left]
    exact or4_shuffle
  | code, .newExpr callee args st e, acc, p => by
    simp only [walkN, topCallStarts]
    rw [addPure_pure_mem (walkN code callee (walkL code args acc)) (Int.ofNat st) p,
      walkN_pure_mem code callee (walkL code args acc) p,
      walkL_pure_mem code args acc p,
      exists_mem_append, exists_mem_append]
    simp only [List.mem_singleton, exists_eq_left]
    exact or4_shuffle
  | code, .functionExpr a b s e, acc, p => by
    simp [walkN, topCallStarts]
  | code, .functionDecl a b s e, acc, p => by
    simp [walkN, topCallStarts]
  | code, .arrowFunc a b s e, acc, p => by
    simp [walkN, topCallStarts]
  | code, .classNode s e, acc, p => by
    simp [walkN, topCallStarts]
  | code, .blockStmt b s e, acc, p => by
    simpa only [walkN, topCallStarts] using walkL_pure_mem code b acc p
  | code, .ident a s e, acc, p => by
    simp [walkN, topCallStarts]
  | code, .lit s e, acc, p => by
    simp [walkN, topCallStarts]
  | code, .assignExpr lhs rhs s e, acc, p => by
    simp only [walkN, topCallStarts]
    rw [walkN_pure_mem code rhs (walkN code lhs acc) p, walkN_pure_mem code lhs acc p,
      exists_mem_append]
    exact or_assoc
  | code, .memberExpr obj prop computed s e, acc, p => by
    cases computed with
    | true =>
      have hstep : walkN code (.memberExpr obj prop true s e) acc
          = walkN code prop (walkN code obj acc) := rfl
      have hstep2 : topCallStarts (.memberExpr obj prop true s e)
          = topCallStarts obj ++ topCallStarts prop := by
        simp [topCallStarts]
      rw [hstep, hstep2, walkN_pure_mem code prop (walkN code obj acc) p,
        walkN_pure_mem code obj acc p, exists_mem_append]
      exact or_assoc
    | false =>
      have hstep : walkN code (.memberExpr obj prop false s e) acc
          = walkN code obj acc := rfl
      have hstep2 : topCallStarts (.memberExpr obj prop false s e)
          = topCallStarts obj := by
        simp [topCallStarts]
      rw [hstep, hstep2]
      exact walkN_pure_mem code obj acc p
theorem walkL_pure_mem : ∀ (code : Chars) (l : JSList) (acc : List Patch) (p : Int),
    (∃ q ∈ walkL code l acc, q.ins = pureC ∧ q.pfrom = p)
      ↔ (∃ q ∈ acc, q.ins = pureC ∧ q.pfrom = p)
          ∨ ∃ st ∈ topCallStartsL l, Int.ofNat st = p
  | code, .nil, acc, p => by
    simp [walkL, topCallStartsL]
  | code, .cons hd tl, acc, p => by
    simp only [walkL, topCallStartsL]
    rw [walkL_pure_mem code tl (walkN code hd acc) p, walkN_pure_mem code hd acc p,
      exists_mem_append]
    exact or_assoc
end

theorem addPure_noAdj (acc : List Patch) (pos : Int) (h : noAdjPureDup acc) :
    noAdjPureDup (addPure acc pos) := by
  cases hl : acc.getLast? with
  | none =>
    have hnil : acc = [] := List.getLast?_eq_none_iff.mp hl
    subst hnil
    have hstep : addPure [] pos = [⟨pos, none, pureC⟩] := rfl
    rw [hstep]
    exact List.chain'_singleton _
  | some last =>
    by_cases hcond : last.pfrom = pos ∧ last.ins = pureC
    · have hstep : addPure acc pos = acc := by
        unfold addPure
        rw [hl]
        exact if_pos hcond
      rw [hstep]
      exact h
    · have hstep : addPure acc pos = acc ++ [⟨pos, none, pureC⟩] := by
        unfold addPure
        rw [hl]
        exact if_neg hcond
      rw [hstep]
      unfold noAdjPureDup at h ⊢
      rw [List.chain'_append]
      refine ⟨h, List.chain'_singleton _, ?_⟩
      intro x hx y hy
      rw [hl, Option.mem_def] at hx
      simp only [List.head?_cons, Option.mem_def] at hy
      cases hx
      cases hy
      rintro ⟨hins, _, hfrom⟩
      exact hcond ⟨hfrom, hins⟩

theorem nonpure_chain (ps : List Patch) (hne : ∀ q ∈ ps, q.ins ≠ pureC) :
    List.Chain' (fun a b => ¬(a.ins = pureC ∧ b.ins = pureC ∧ a.pfrom = b.pfrom)) ps := by
  induction ps with
  | nil => exact List.chain'_nil
  | cons a ps ih =>
    cases ps with
    | nil => exact List.chain'_singleton _
    | cons b ps2 =>
      rw [List.chain'_cons]
      refine ⟨fun hc => hne a (List.mem_cons_self _ _) hc.1,
        ih fun q hq => hne q (List.mem_cons_of_mem _ hq)⟩

theorem append_nonpure_noAdj (acc ps : List Patch)
    (hne : ∀ q ∈ ps, q.ins ≠ pureC) (h : noAdjPureDup acc) :
    noAdjPureDup (acc ++ ps) := by
  unfold noAdjPureDup at h ⊢
  rw [List.chain'_append]
  refine ⟨h, nonpure_chain ps hne, ?_⟩
  intro x _ y hy
  rintro ⟨_, hins2, _⟩
  exact hne y (List.mem_of_mem_head? hy) hins2

theorem enumPatches_noAdj (code : Chars) (callee : JSNode) (st : Nat)
    (acc : List Patch) (h : noAdjPureDup acc) :
    noAdjPureDup (enumPatches code callee st acc) := by
  cases callee with
  | functionExpr params body ns ne =>
    simp only [enumPatches]
    split
    · split
      · split
        · split
          · apply append_nonpure_noAdj _ _ _ h
            intro q hq
            rcases List.mem_cons.mp hq with rfl | hq
            · exact spaceIns_ne_pure
            · rw [List.mem_singleton] at hq
              subst hq
              exact returnIns_ne_pure _
          · exact h
        · exact h
      · exact h
    · exact h
  | program b s e => exact h
  | exprStmt x s e => exact h
  | varDecl ds s e => exact h
  | varDeclarator a b s e => exact h
  | callExpr a b s e => exact h
  | newExpr a b s e => exact h
  | functionDecl a b s e => exact h
  | arrowFunc a b s e => exact h
  | classNode s e => exact h
  | blockStmt b s e => exact h
  | ident a s e => exact h
  | lit s e => exact h
  | assignExpr a b s e => exact h
  | memberExpr a b c s e => exact h

mutual
theorem walkN_noAdj : ∀ (code : Chars) (n : JSNode) (acc : List Patch),
    noAdjPureDup acc → noAdjPureDup (walkN code n acc)
  | code, .program b s e, acc, h => walkL_noAdj code b acc h
  | code, .exprStmt x s e, acc, h => walkN_noAdj code x acc h
  | code, .varDecl ds s e, acc, h => walkL_noAdj code ds acc h
  | code, .varDeclarator idn ini s e, acc, h =>
    walkL_noAdj code ini (walkN code idn acc) (walkN_noAdj code idn acc h)
  | code, .callExpr callee args st e, acc, h =>
    enumPatches_noAdj code callee st _
      (addPure_noAdj (walkN code callee (walkL code args acc)) (Int.ofNat st)
        (walkN_noAdj code callee (walkL code args acc) (walkL_noAdj code args acc h)))
  | code, .newExpr callee args st e, acc, h =>
    addPure_noAdj (walkN code callee (walkL code args acc)) (Int.ofNat st)
      (walkN_noAdj code callee (walkL code args acc) (walkL_noAdj code args acc h))
  | _, .functionExpr _ _ _ _, _, h => h
  | _, .functionDecl _ _ _ _, _, h => h
  | _, .arrowFunc _ _ _ _, _, h => h
  | _, .classNode _ _, _, h => h
  | code, .blockStmt b s e, acc, h => walkL_noAdj code b acc h
  | _, .ident _ _ _, _, h => h
  | _, .lit _ _, _, h => h
  | code, .assignExpr lhs rhs s e, acc, h =>
    walkN_noAdj code rhs (walkN code lhs acc) (walkN_noAdj code lhs acc h)
  | code, .memberExpr obj prop computed s e, acc, h => by
    cases computed with
    | true =>
      have hstep : walkN code (.memberExpr obj prop true s e) acc
          = walkN code prop (walkN code obj acc) := rfl
      rw [hstep]
      exact walkN_noAdj code prop (walkN code obj acc) (walkN_noAdj code obj acc h)
    | false =>
      have hstep : walkN code (.memberExpr obj prop false s e) acc
          = walkN code obj acc := rfl
      rw [hstep]
      exact walkN_noAdj code obj acc h
theorem walkL_noAdj : ∀ (code : Chars) (l : JSList) (acc : List Patch),
    noAdjPureDup acc → noAdjPureDup (walkL code l acc)
  | _, .nil, _, h => h
  | code, .cons hd tl, acc, h =>
    walkL_noAdj code tl (walkN code hd acc) (walkN_noAdj code hd acc h)
end

/-- C2: the annotator's patch list carries a pure marker at a position
exactly when that position is the start of a call expression or
constructor invocation that is not lexically nested inside a function or
class body (the `topCallStarts` traversal, written from the
specification's words, never descends into `Function`/`Class` nodes); on
`function f(){ g(); } h();` only `h()` is marked and `g()` is not; and on
`h(g());` the generated patch order shows the argument's marker computed
before the enclosing call's (innermost-first: arguments and callee are
visited before `addPure` runs for the call). -/
theorem pure_marker_iff_nonnested_call :
    (∀ (code : Chars) (ast : JSNode) (p : Int),
        (∃ q ∈ annPatches code ast, q.ins = pureC ∧ q.pfrom = p)
          ↔ ∃ st ∈ topCallStarts ast, Int.ofNat st = p)
      ∧ addPureComments ex2code ex2ast = "function f()\x7b g(); \x7d /*@__PURE__*/h();".data
      ∧ walkN exOrdCode exOrdAst [] = [⟨2, none, pureC⟩, ⟨0, none, pureC⟩]
      ∧ addPureComments exOrdCode exOrdAst = "/*@__PURE__*/h(/*@__PURE__*/g());".data := by
  refine ⟨?_, by decide, by decide, by decide⟩
  intro code ast p
  have hperm : ∀ q : Patch, q ∈ annPatches code ast ↔ q ∈ walkN code ast [] :=
    fun q => (List.perm_insertionSort patchLE (walkN code ast [])).mem_iff
  have hmain := walkN_pure_mem code ast [] p
  constructor
  · rintro ⟨q, hq, hp⟩
    rcases hmain.mp ⟨q, (hperm q).mp hq, hp⟩ with ⟨q2, hq2, _⟩ | h
    · exact absurd hq2 (List.not_mem_nil q2)
    · exact h
  · intro h
    obtain ⟨q, hq, hp⟩ := hmain.mpr (Or.inr h)
    exact ⟨q, (hperm q).mpr hq, hp⟩

/-- C3 counterexample: on the specification's exact input
`var E; (function(E2){ E2.A = 0 })(E);` the enum rewrite does not fire —
the regex captures `E` but the parameter is named `E2`, so the guard
`m[1] == params[0].name` fails.  No return is appended and the
declaration `var E;` survives unrewritten. -/
theorem enum_example_no_rewrite :
    containsSub "return".data (addPureComments ex3code ex3ast) = false
      ∧ containsSub "var E;".data (addPureComments ex3code ex3ast) = true := by
  constructor <;> decide

/-- C3 amended: on that input the annotator only inserts a pure marker
before the call; the enum rewrite (declaration-to-assignment plus appended
return) requires the declared variable's name to equal the callee's
parameter name, which `E` vs `E2` violates. -/
theorem enum_example_pure_only :
    addPureComments ex3code ex3ast
      = "var E; /*@__PURE__*/(function(E2)\x7b E2.A = 0 \x7d)(E);".data := by
  decide

/-- C4 counterexample: on `var E; (function(E){ E.A = 0 })(E)();` the
callee call and the outer call share start position 7; the enum-rewrite
patches interpose between their two marker patches, the guard (which
compares only the most recently computed patch) keeps both, and the
rewritten output carries a doubled marker. -/
theorem same_pos_duplicate_markers_survive :
    ((annPatches ex4code ex4ast).filter fun q => (q.pfrom == 7) && (q.ins == pureC)).length = 2
      ∧ containsSub (pureC ++ pureC) (addPureComments ex4code ex4ast) = true := by
  constructor <;> decide

/-- C4 amended: the dedup guard is adjacent-only — the computed patch list
never contains two consecutive marker patches at one position (so a call
chain like `f(0)(1);` gets a single marker), but duplicates separated by
other patches survive; patches are applied to the original text in
ascending position order (a stable sort) in a single left-to-right pass. -/
theorem adjacent_marker_dedup_and_sorted_apply :
    (∀ (code : Chars) (ast : JSNode), noAdjPureDup (walkN code ast []))
      ∧ (∀ l : List Patch, List.Sorted patchLE (sortPatches l))
      ∧ (∀ l : List Patch, List.Perm (sortPatches l) l)
      ∧ addPureComments exChainCode exChainAst = "/*@__PURE__*/f(0)(1);".data :=
  ⟨fun code ast => walkN_noAdj code ast [] List.chain'_nil,
   fun l => List.sorted_insertionSort patchLE l,
   fun l => List.perm_insertionSort patchLE l,
   by decide⟩

end CMB
